import Mathlib

/-!
# identbase/link — the in-memory store (`pkg/store`)

A shallow embedding of `pkg/store/store.go` and `pkg/store/pubkey.go`.

Modelling decisions, each taken from the source:

* A Go `string` is a Lean `String`; `strings.Contains` is the infix test on
  the character sequence.
* `map[string]Keyer` is a finite map with unique keys together with the
  order in which a `range` loop visits it (`GoMap`).  The field `data` of
  `InMemory` may be the nil map: it is `Option (GoMap V)`, `none` being nil.
* A keyed entity is a value of some type `V` that implements the interface
  (`class Keyer`), so `v.Key()` returns on it; `InMemory.Put` is `Put` on such
  a value, and the map holds values of `V`.  The Go type `Keyer` has two more
  inhabitants, the nil interface and a nil pointer of the implementing type,
  on which `v.Key()` panics: `GoKeyer` is the full argument type and
  `InMemory.PutCall` is `Put` on it, with the panic as an outcome.  A result
  of type `Keyer` may be the nil interface and is an `Option V`, `none` being
  nil.  A `*Keyer` result is an `Option V` as well, `none` being the nil
  pointer.
* `error` results are `Option String`, `none` being the nil error.
* The embedded `sync.RWMutex` does not appear: the operations are modelled
  as what one call computes when it runs alone.
* The `Logger` is a handle kept in the field `log`; the messages sent to it
  change no field of the store and are not modelled.
-/

namespace store

/-- Keyer is an object that can be kept in an InMemory store
(`type Keyer interface { Key() string }`). -/
class Keyer (V : Type) where
  Key : V → String

/-- PublicKey of `pubkey.go`: three string fields. -/
structure PublicKey where
  Algorithm : String
  Identifier : String
  Content : String
deriving DecidableEq, Repr

/-- Key is the key used to save and look up a particular item:
`fmt.Sprintf("%s:%s", p.Algorithm, p.Identifier)`. -/
def PublicKey.Key (p : PublicKey) : String :=
  p.Algorithm ++ ":" ++ p.Identifier

instance : Keyer PublicKey where
  Key := PublicKey.Key

/-- The Go `error` interface as far as the store uses it: `none` is `nil`. -/
abbrev GoError := Option String

/-- A materialized Go `map[string]V`: unique keys, listed in the order a
`range` loop visits them. -/
abbrev GoMap (V : Type) := AList (fun _ : String => V)

/-- The Go expression `m[k]` on a possibly nil map: the zero value (the nil
interface, `none`) when the key is missing or the map is nil. -/
def mapIndex {V : Type} (m : Option (GoMap V)) (k : String) : Option V :=
  match m with
  | none => none
  | some d => d.lookup k

/-- The pairs a `for key, value := range m` loop visits, in order; a nil map
is visited as an empty one. -/
def mapRange {V : Type} (m : Option (GoMap V)) : List (String × V) :=
  match m with
  | none => []
  | some d => d.entries.map (fun e => (e.1, e.2))

/-- Go `strings.Contains(s, substr)`. -/
def stringsContains (s substr : String) : Bool :=
  decide (substr.data <:+: s.data)

/-- InMemory store: the logger handle and the (possibly nil) map. -/
structure InMemory (L V : Type) where
  log : L
  data : Option (GoMap V)

variable {L V : Type}

/-- New creates a new InMemory store: only `log` is set, `data` stays nil. -/
def New (l : L) : InMemory L V :=
  { log := l, data := none }

/-- The statement `if db.data == nil { db.data = make(map[string]Keyer) }`
shared by `Put` and `Remove`. -/
def materialize (m : Option (GoMap V)) : GoMap V :=
  match m with
  | none => ∅
  | some d => d

/-- Put stores a value: `db.data[v.Key()] = v; return nil`. -/
def InMemory.Put [Keyer V] (db : InMemory L V) (v : V) : InMemory L V × GoError :=
  let data := materialize db.data
  ({ db with data := some (data.insert (Keyer.Key v) v) }, none)

/-- Get retrieves a value: `return db.data[k]`. -/
def InMemory.Get (db : InMemory L V) (k : String) : Option V :=
  mapIndex db.data k

/-- The loop of `Lookup` over the visited pairs: the first pair whose key
equals `k` ends the loop with a pointer to its value. -/
def lookupLoop (k : String) : List (String × V) → Option V
  | [] => none
  | (key, value) :: rest => if key = k then some value else lookupLoop k rest

/-- Lookup retrieves a value or returns nil if it does not exist. -/
def InMemory.Lookup (db : InMemory L V) (k : String) : Option V :=
  lookupLoop k (mapRange db.data)

/-- Remove a value: materialize the map, `delete(db.data, k)`, `return nil`. -/
def InMemory.Remove (db : InMemory L V) (k : String) : InMemory L V × GoError :=
  let data := materialize db.data
  ({ db with data := some (data.erase k) }, none)

/-- The loop of `Search` over the visited keys: a key containing `q` appends
`db.Get(key)` to the result. -/
def searchLoop (db : InMemory L V) (q : String) :
    List (String × V) → List (Option V) → List (Option V)
  | [], result => result
  | (key, _) :: rest, result =>
    if stringsContains key q then searchLoop db q rest (result ++ [db.Get key])
    else searchLoop db q rest result

/-- Search on keys: `var result []Keyer`, the loop, `return result, nil`. -/
def InMemory.Search (db : InMemory L V) (q : String) : List (Option V) × GoError :=
  (searchLoop db q (mapRange db.data) [], none)

/-- The keys the store holds, in the order a `range` loop visits them. -/
def InMemory.keys (db : InMemory L V) : List String :=
  (mapRange db.data).map Prod.fst

/-- The store states a client can reach: `New`, then any number of `Put` and
`Remove` calls.  Go leaves the order in which `range` visits a map
unspecified, so a state whose map lists the same entries in another order is
the same store (`reorder`). -/
inductive Reachable [Keyer V] : InMemory L V → Prop
  | new (l : L) : Reachable (New l)
  | put {s : InMemory L V} (v : V) : Reachable s → Reachable (s.Put v).1
  | remove {s : InMemory L V} (k : String) : Reachable s → Reachable (s.Remove k).1
  | reorder {s : InMemory L V} {d d2 : GoMap V} : Reachable s → s.data = some d →
      d.entries.Perm d2.entries → Reachable { s with data := some d2 }

/-- Every entry of the map sits under the key its value derives. -/
def KeyConsistent [Keyer V] (db : InMemory L V) : Prop :=
  ∀ k v, mapIndex db.data k = some v → Keyer.Key v = k

/-- How a Go call ends: it returns a value, or it panics. -/
inductive Outcome (α : Type) where
  | returns (a : α)
  | panics
deriving DecidableEq, Repr

/-- A Go value of interface type `Keyer` as `Put` can receive it: the nil
interface, a nil pointer of the implementing type (`(*PublicKey)(nil)`), or a
pointer to a value. -/
inductive GoKeyer (V : Type) where
  | nilInterface
  | nilPointer
  | pointer (v : V)
deriving DecidableEq, Repr

/-- The call `v.Key()` on a Go argument: a method call on the nil interface
panics, and so does `PublicKey.Key` on a nil pointer, which reads
`p.Algorithm`. -/
def GoKeyer.Key [Keyer V] : GoKeyer V → Outcome String
  | GoKeyer.nilInterface => Outcome.panics
  | GoKeyer.nilPointer => Outcome.panics
  | GoKeyer.pointer v => Outcome.returns (Keyer.Key v)

/-- Put as a Go call on any argument of type `Keyer`.  The map is
materialized first (lines 69-71); then `v.Key()` is evaluated for the log
line (line 73): if it panics the call ends there, otherwise the entry is
written and nil is returned. -/
def InMemory.PutCall [Keyer V] (db : InMemory L V) (a : GoKeyer V) :
    InMemory L V × Outcome GoError :=
  let data := materialize db.data
  match a, a.Key with
  | GoKeyer.pointer v, Outcome.returns key =>
    ({ db with data := some (data.insert key v) }, Outcome.returns none)
  | _, _ => ({ db with data := some data }, Outcome.panics)

/-- The mapping holds the entry `(k, v)`, read off the field `data` itself; a
nil map holds no entry. -/
def InMemory.holds (db : InMemory L V) (k : String) (v : V) : Prop :=
  ∃ d, db.data = some d ∧ Sigma.mk k v ∈ d.entries

/-- The keys of the mapping, read off the field `data` itself; `len(db.data)`
is the length of this list. -/
def InMemory.storedKeys (db : InMemory L V) : List String :=
  match db.data with
  | none => []
  | some d => d.keys

/-- One mutating call on the store: `Put(v)` or `Remove(k)`. -/
inductive Op (V : Type) where
  | put (v : V)
  | remove (k : String)

/-- The store after one mutating call. -/
def InMemory.step [Keyer V] (db : InMemory L V) : Op V → InMemory L V
  | Op.put v => (db.Put v).1
  | Op.remove k => (db.Remove k).1

/-- The store after a sequence of mutating calls, first call first. -/
def InMemory.run [Keyer V] (db : InMemory L V) (ops : List (Op V)) : InMemory L V :=
  ops.foldl InMemory.step db

/-- What one call makes of the value stored under `k`: a `Put` of an entity
with key `k` stores it, a `Remove(k)` removes it, any other call leaves it. -/
def storedStep [Keyer V] (k : String) (cur : Option V) : Op V → Option V
  | Op.put v => if Keyer.Key v = k then some v else cur
  | Op.remove j => if j = k then none else cur

/-- The value that a sequence of calls on a new store has stored under `k`
and not removed since, if there is one. -/
def lastStored [Keyer V] (k : String) (ops : List (Op V)) : Option V :=
  ops.foldl (storedStep k) none

/-! ## The records of the scenarios -/

/-- The record keyed "ed25519:0" with content "abc". -/
def recordAbc : PublicKey := { Algorithm := "ed25519", Identifier := "0", Content := "abc" }

/-- The record keyed "ed25519:1" with content "xyz". -/
def recordXyz : PublicKey := { Algorithm := "ed25519", Identifier := "1", Content := "xyz" }

/-- A second record keyed "ed25519:0", with content "xyz". -/
def recordAbc2 : PublicKey := { Algorithm := "ed25519", Identifier := "0", Content := "xyz" }

/-- The store after `New`, `Put(recordAbc)`, `Put(recordXyz)`. -/
def twoRecords : InMemory Unit PublicKey :=
  (((New ()).Put recordAbc).1.Put recordXyz).1

/-- The store after `New`, `Put(recordXyz)`, `Put(recordAbc)`: the entries of
`twoRecords`, visited in the other order. -/
def twoRecordsSwapped : InMemory Unit PublicKey :=
  (((New ()).Put recordXyz).1.Put recordAbc).1

/-- Two records whose fields differ and that contain ":". -/
def colonInAlgorithm : PublicKey := { Algorithm := "a:b", Identifier := "c", Content := "" }

/-- See `colonInAlgorithm`. -/
def colonInIdentifier : PublicKey := { Algorithm := "a", Identifier := "b:c", Content := "" }

/-- The record ("a", "b"): no ":" in either field. -/
def colonFree : PublicKey := { Algorithm := "a", Identifier := "b", Content := "" }

/-- A keyed entity other than `PublicKey`: the interface asks for a `Key`
method only, so a type that returns one of its fields as its key, the empty
string included, can be kept in the store. -/
structure Label where
  name : String
deriving DecidableEq, Repr

instance : Keyer Label where
  Key := fun x => x.name

/-- The entity whose key is the empty string. -/
def emptyLabel : Label := { name := "" }

/-- The map probe the spec names as the equivalent of `Lookup`
(`v, ok := db.data[k]`): the value at `k` and whether `k` is present. -/
def lookupProbe (db : InMemory L V) (k : String) : Option V × Bool :=
  (mapIndex db.data k, decide (k ∈ db.keys))

/-! ## Map facts -/

theorem mapIndex_materialize (m : Option (GoMap V)) (k : String) :
    (materialize m).lookup k = mapIndex m k := by
  cases m <;> simp [materialize, mapIndex]

theorem mem_mapRange (m : Option (GoMap V)) (k : String) (v : V) :
    (k, v) ∈ mapRange m ↔ mapIndex m k = some v := by
  cases m with
  | none => simp [mapRange, mapIndex]
  | some d =>
    simp only [mapRange, mapIndex, List.mem_map]
    constructor
    · rintro ⟨⟨a, b⟩, hmem, heq⟩
      simp only [Prod.mk.injEq] at heq
      obtain ⟨rfl, rfl⟩ := heq
      exact AList.mem_lookup_iff.mpr hmem
    · intro h
      exact ⟨⟨k, v⟩, AList.mem_lookup_iff.mp h, rfl⟩

theorem lookupLoop_entries (k : String) (l : List (Sigma fun _ : String => V)) :
    lookupLoop k (l.map (fun e => (e.1, e.2))) = l.dlookup k := by
  induction l with
  | nil => rfl
  | cons e rest ih =>
    obtain ⟨a, b⟩ := e
    by_cases h : a = k
    · subst h
      simp [lookupLoop, List.dlookup_cons_eq]
    · have h2 : k ≠ a := fun e => h e.symm
      simp only [List.map_cons, lookupLoop, h, if_false, ih]
      exact (List.dlookup_cons_ne rest ⟨a, b⟩ h2).symm

/-- The scan of `Lookup` and the map access of `Get` give the same answer. -/
theorem Lookup_eq_Get (s : InMemory L V) (k : String) : s.Lookup k = s.Get k := by
  unfold InMemory.Lookup InMemory.Get
  cases hd : s.data with
  | none => rfl
  | some d => simpa [mapRange, mapIndex] using lookupLoop_entries k d.entries

theorem stringsContains_empty (s : String) : stringsContains s "" = true := by
  simp [stringsContains]

theorem searchLoop_eq (db : InMemory L V) (q : String) (l : List (String × V))
    (acc : List (Option V)) :
    searchLoop db q l acc =
      acc ++ (l.filter (fun e => stringsContains e.1 q)).map (fun e => db.Get e.1) := by
  induction l generalizing acc with
  | nil => simp [searchLoop]
  | cons e rest ih =>
    obtain ⟨key, value⟩ := e
    by_cases h : stringsContains key q = true
    · simp [searchLoop, h, ih]
    · simp [searchLoop, h, ih]

theorem Search_eq (db : InMemory L V) (q : String) :
    (db.Search q).1 =
      ((mapRange db.data).filter (fun e => stringsContains e.1 q)).map
        (fun e => some e.2) := by
  simp only [InMemory.Search, searchLoop_eq, List.nil_append]
  apply List.map_congr_left
  intro e he
  obtain ⟨k, v⟩ := e
  exact (mem_mapRange db.data k v).mp (List.mem_of_mem_filter he)

theorem mapRange_nodup_keys (m : Option (GoMap V)) :
    ((mapRange m).map Prod.fst).Nodup := by
  cases m with
  | none => simp [mapRange]
  | some d =>
    have h : (d.entries.map (fun e => (e.1, e.2))).map Prod.fst = d.keys := by
      simp [AList.keys, List.keys, List.map_map, Function.comp_def]
    simpa [mapRange, h] using d.keys_nodup

theorem reachable_keyConsistent [Keyer V] {s : InMemory L V} (h : Reachable s) :
    KeyConsistent s := by
  induction h with
  | new l => intro k v hv; simp [New, mapIndex] at hv
  | @put s v _ ih =>
    intro k w hw
    simp only [InMemory.Put, mapIndex] at hw
    by_cases hk : k = Keyer.Key v
    · subst hk
      rw [AList.lookup_insert] at hw
      cases hw
      rfl
    · rw [AList.lookup_insert_ne hk, mapIndex_materialize] at hw
      exact ih k w hw
  | @remove s k _ ih =>
    intro j w hw
    simp only [InMemory.Remove, mapIndex] at hw
    by_cases hk : j = k
    · subst hk
      rw [AList.lookup_erase] at hw
      cases hw
    · rw [AList.lookup_erase_ne hk, mapIndex_materialize] at hw
      exact ih j w hw
  | @reorder s d d2 _ hd hp ih =>
    intro k w hw
    simp only [mapIndex] at hw
    rw [← AList.perm_lookup hp] at hw
    exact ih k w (by rw [hd]; exact hw)

theorem erase_absent (d : GoMap V) (k : String) (h : d.lookup k = none) :
    d.erase k = d := by
  apply AList.ext
  simp only [AList.erase]
  exact List.kerase_of_not_mem_keys (AList.lookup_eq_none.mp h)

theorem mapRange_remove_absent (m : Option (GoMap V)) (k : String)
    (h : mapIndex m k = none) :
    mapRange (some ((materialize m).erase k)) = mapRange m := by
  cases m with
  | none => rfl
  | some d =>
    simp only [materialize]
    rw [erase_absent d k (by simpa [mapIndex] using h)]

theorem mapIndex_remove_absent (m : Option (GoMap V)) (k j : String)
    (h : mapIndex m k = none) :
    mapIndex (some ((materialize m).erase k)) j = mapIndex m j := by
  cases m with
  | none =>
    simp only [materialize, mapIndex]
    rw [erase_absent ∅ k (AList.lookup_empty k)]
    exact AList.lookup_empty j
  | some d =>
    simp only [materialize]
    rw [erase_absent d k (by simpa [mapIndex] using h)]

theorem countP_eq_one {α : Type} (p : α → Bool) (a : α) (hp : ∀ x, p x = true ↔ x = a) :
    ∀ l : List α, l.Nodup → a ∈ l → l.countP p = 1
  | [], _, h => by simp at h
  | x :: rest, nd, h => by
    rw [List.nodup_cons] at nd
    by_cases hx : x = a
    · subst hx
      have h0 : rest.countP p = 0 := by
        rw [List.countP_eq_zero]
        intro y hy hpy
        exact nd.1 ((hp y).mp hpy ▸ hy)
      simp [List.countP_cons, (hp x).mpr rfl, h0]
    · have hmem : a ∈ rest := by
        cases h with
        | head => exact absurd rfl hx
        | tail _ ht => exact ht
      have hpx : p x ≠ true := fun hq => hx ((hp x).mp hq)
      simp [List.countP_cons, hpx, countP_eq_one p a hp rest nd.2 hmem]

theorem keys_filter_length (db : InMemory L V) (q : String) :
    (db.keys.filter (fun k => stringsContains k q)).length =
      ((mapRange db.data).filter (fun e => stringsContains e.1 q)).length := by
  simp only [InMemory.keys, List.filter_map, List.length_map]
  rfl

theorem mem_keys_iff (s : InMemory L V) (k : String) :
    k ∈ s.keys ↔ ∃ v, s.Get k = some v := by
  simp only [InMemory.keys, InMemory.Get, List.mem_map]
  constructor
  · rintro ⟨⟨a, v⟩, hmem, rfl⟩
    exact ⟨v, (mem_mapRange s.data a v).mp hmem⟩
  · rintro ⟨v, hv⟩
    exact ⟨(k, v), (mem_mapRange s.data k v).mpr hv, rfl⟩

theorem Get_of_perm (s t : InMemory L V) (k : String)
    (h : (mapRange t.data).Perm (mapRange s.data)) : t.Get k = s.Get k := by
  apply Option.ext
  intro v
  simp only [InMemory.Get, Option.mem_def]
  rw [← mem_mapRange, ← mem_mapRange]
  exact h.mem_iff

theorem Get_put_ne [Keyer V] (s : InMemory L V) (v : V) (k : String)
    (h : k ≠ Keyer.Key v) : (s.Put v).1.Get k = s.Get k := by
  show ((materialize s.data).insert (Keyer.Key v) v).lookup k = mapIndex s.data k
  rw [AList.lookup_insert_ne h, mapIndex_materialize]

theorem Get_remove_ne (s : InMemory L V) (k j : String) (h : k ≠ j) :
    (s.Remove k).1.Get j = s.Get j := by
  show ((materialize s.data).erase k).lookup j = mapIndex s.data j
  rw [AList.lookup_erase_ne (fun e => h e.symm), mapIndex_materialize]

theorem keyConsistent_new [Keyer V] (l : L) : KeyConsistent (New l : InMemory L V) := by
  intro k v hv
  simp [New, mapIndex] at hv

theorem keyConsistent_put [Keyer V] (s : InMemory L V) (v : V) (h : KeyConsistent s) :
    KeyConsistent (s.Put v).1 := by
  intro k w hw
  by_cases hk : k = Keyer.Key v
  · subst hk
    have hg : (s.Put v).1.Get (Keyer.Key v) = some v := by
      simp [InMemory.Put, InMemory.Get, mapIndex, AList.lookup_insert]
    have hw2 : (s.Put v).1.Get (Keyer.Key v) = some w := hw
    rw [hg] at hw2
    cases hw2
    rfl
  · have hw2 : (s.Put v).1.Get k = some w := hw
    rw [Get_put_ne s v k hk] at hw2
    exact h k w hw2

theorem keyConsistent_remove [Keyer V] (s : InMemory L V) (k : String)
    (h : KeyConsistent s) : KeyConsistent (s.Remove k).1 := by
  intro j w hw
  by_cases hk : k = j
  · subst hk
    have hg : (s.Remove k).1.Get k = none := by
      simp [InMemory.Remove, InMemory.Get, mapIndex, AList.lookup_erase]
    have hw2 : (s.Remove k).1.Get k = some w := hw
    rw [hg] at hw2
    cases hw2
  · have hw2 : (s.Remove k).1.Get j = some w := hw
    rw [Get_remove_ne s k j hk] at hw2
    exact h j w hw2

theorem append_sep_inj (c : Char) :
    ∀ (l1 l2 r1 r2 : List Char), c ∉ l1 → c ∉ l2 →
      l1 ++ c :: r1 = l2 ++ c :: r2 → l1 = l2 ∧ r1 = r2
  | [], [], r1, r2, _, _, h => by
    simp only [List.nil_append, List.cons.injEq, true_and] at h
    exact ⟨rfl, h⟩
  | [], y :: l2, r1, r2, _, h2, h => by
    simp only [List.nil_append, List.cons_append, List.cons.injEq] at h
    exact absurd (h.1 ▸ List.mem_cons_self y l2) h2
  | x :: l1, [], r1, r2, h1, _, h => by
    simp only [List.nil_append, List.cons_append, List.cons.injEq] at h
    exact absurd (h.1 ▸ List.mem_cons_self x l1) h1
  | x :: l1, y :: l2, r1, r2, h1, h2, h => by
    simp only [List.cons_append, List.cons.injEq] at h
    obtain ⟨hxy, hrest⟩ := h
    have ih := append_sep_inj c l1 l2 r1 r2
      (fun hc => h1 (List.mem_cons_of_mem x hc))
      (fun hc => h2 (List.mem_cons_of_mem y hc)) hrest
    exact ⟨by rw [hxy, ih.1], ih.2⟩

theorem Key_data (p : PublicKey) :
    p.Key.data = p.Algorithm.data ++ ':' :: p.Identifier.data := by
  simp [PublicKey.Key, String.data_append]

theorem holds_iff_Get (s : InMemory L V) (k : String) (v : V) :
    s.holds k v ↔ s.Get k = some v := by
  unfold InMemory.holds InMemory.Get
  cases hd : s.data with
  | none => simp [mapIndex]
  | some d =>
    simp only [mapIndex, Option.some.injEq, exists_eq_left']
    exact AList.mem_lookup_iff.symm

theorem storedKeys_eq_keys (s : InMemory L V) : s.storedKeys = s.keys := by
  unfold InMemory.storedKeys InMemory.keys
  cases hd : s.data with
  | none => rfl
  | some d => simp [mapRange, AList.keys, List.keys, List.map_map, Function.comp_def]

theorem Get_step [Keyer V] (s : InMemory L V) (k : String) (op : Op V) :
    (s.step op).Get k = storedStep k (s.Get k) op := by
  cases op with
  | put v =>
    simp only [InMemory.step, storedStep]
    by_cases h : Keyer.Key v = k
    · subst h
      simp [InMemory.Put, InMemory.Get, mapIndex, AList.lookup_insert]
    · rw [if_neg h]
      exact Get_put_ne s v k (fun e => h e.symm)
  | remove j =>
    simp only [InMemory.step, storedStep]
    by_cases h : j = k
    · subst h
      simp [InMemory.Remove, InMemory.Get, mapIndex, AList.lookup_erase]
    · rw [if_neg h]
      exact Get_remove_ne s j k h

theorem Get_run [Keyer V] (k : String) (ops : List (Op V)) :
    ∀ s : InMemory L V, (s.run ops).Get k = ops.foldl (storedStep k) (s.Get k) := by
  induction ops with
  | nil => intro s; rfl
  | cons op rest ih =>
    intro s
    simp only [InMemory.run, List.foldl_cons]
    rw [← Get_step]
    exact ih (s.step op)

/-! ## Claims -/

/-- C1: Put then Get round trip — for every store state `s` and every keyed
entity `v`, after `Put(v)` the call `Get(v.Key())` returns exactly `v`. -/
theorem put_get_roundtrip [Keyer V] (s : InMemory L V) (v : V) :
    (s.Put v).1.Get (Keyer.Key v) = some v := by
  simp [InMemory.Put, InMemory.Get, mapIndex, AList.lookup_insert]

/-- C2: Overwrite semantics — for every store state `s`, key `k` and two
different entities `v1`, `v2` that both produce key `k`, after `Put(v1)` then
`Put(v2)`, `Get(k)` returns `v2`, `Lookup(k)` returns a reference to `v2` and
not to `v1`, and the store holds exactly one entry for `k`. -/
theorem put_overwrite [Keyer V] (s : InMemory L V) (k : String) (v1 v2 : V)
    (h1 : Keyer.Key v1 = k) (h2 : Keyer.Key v2 = k) (hne : v1 ≠ v2) :
    ((s.Put v1).1.Put v2).1.Get k = some v2 ∧
    ((s.Put v1).1.Put v2).1.Lookup k = some v2 ∧
    ((s.Put v1).1.Put v2).1.Lookup k ≠ some v1 ∧
    ((s.Put v1).1.Put v2).1.keys.count k = 1 := by
  have hg : ((s.Put v1).1.Put v2).1.Get k = some v2 := by
    subst h2
    simp [InMemory.Put, InMemory.Get, mapIndex, AList.lookup_insert]
  have hl : ((s.Put v1).1.Put v2).1.Lookup k = some v2 := by
    rw [Lookup_eq_Get]; exact hg
  refine ⟨hg, hl, ?_, ?_⟩
  · rw [hl]
    intro h
    exact hne (Option.some.inj h).symm
  · apply List.count_eq_one_of_mem (mapRange_nodup_keys _)
    have hm : (k, v2) ∈ mapRange ((s.Put v1).1.Put v2).1.data :=
      (mem_mapRange _ k v2).mpr hg
    exact List.mem_map.mpr ⟨(k, v2), hm, rfl⟩

/-- Witness of C2: two different records with key "ed25519:0" put one after
the other into the new store. -/
theorem put_overwrite_witness :
    Keyer.Key recordAbc = "ed25519:0" ∧ Keyer.Key recordAbc2 = "ed25519:0" ∧
    recordAbc ≠ recordAbc2 ∧
    ((((New ()).Put recordAbc).1.Put recordAbc2).1.Get "ed25519:0" = some recordAbc2 ∧
     (((New ()).Put recordAbc).1.Put recordAbc2).1.Lookup "ed25519:0" = some recordAbc2 ∧
     (((New ()).Put recordAbc).1.Put recordAbc2).1.Lookup "ed25519:0" ≠ some recordAbc ∧
     (((New ()).Put recordAbc).1.Put recordAbc2).1.keys.count "ed25519:0" = 1) :=
  ⟨by decide, by decide, by decide,
    put_overwrite (New ()) "ed25519:0" recordAbc recordAbc2 (by decide) (by decide)
      (by decide)⟩

/-- C3: Remove then retrieve — for every store state `s` and key `k`, after
`Remove(k)`, `Get(k)` returns the nil sentinel and `Lookup(k)` returns nil,
whether or not `k` was present before. -/
theorem remove_then_retrieve (s : InMemory L V) (k : String) :
    (s.Remove k).1.Get k = none ∧ (s.Remove k).1.Lookup k = none := by
  have hg : (s.Remove k).1.Get k = none := by
    simp [InMemory.Remove, InMemory.Get, mapIndex, AList.lookup_erase]
  exact ⟨hg, by rw [Lookup_eq_Get]; exact hg⟩

/-- C4: Search completeness — in every store state reachable from `New` by
`Put` and `Remove`, for every `q`, an entity is in the result of `Search(q)`
if and only if it is currently stored and its derived key contains `q`. -/
theorem search_complete [Keyer V] (s : InMemory L V) (h : Reachable s) (q : String)
    (e : V) :
    some e ∈ (s.Search q).1 ↔
      ((∃ k, s.Get k = some e) ∧ stringsContains (Keyer.Key e) q = true) := by
  have hinv := reachable_keyConsistent h
  rw [Search_eq]
  simp only [List.mem_map, List.mem_filter, Option.some.injEq]
  constructor
  · rintro ⟨⟨k, v⟩, ⟨hmem, hq⟩, rfl⟩
    have hk := (mem_mapRange s.data k v).mp hmem
    have hkey := hinv k v hk
    exact ⟨⟨k, hk⟩, by rw [hkey]; exact hq⟩
  · rintro ⟨⟨k, hk⟩, hq⟩
    have hkey := hinv k e hk
    refine ⟨(k, e), ⟨(mem_mapRange s.data k e).mpr hk, ?_⟩, rfl⟩
    rw [← hkey]; exact hq

/-- Witness of C4: with the records keyed "ed25519:0" and "ed25519:1" stored,
`Search("ed25519")` returns both and `Search("0")` returns only the first. -/
theorem search_complete_witness :
    Reachable twoRecords ∧
    (some recordAbc ∈ (twoRecords.Search "0").1 ↔
      ((∃ k, twoRecords.Get k = some recordAbc) ∧
        stringsContains (Keyer.Key recordAbc) "0" = true)) ∧
    (twoRecords.Search "0").1 = [some recordAbc] ∧
    (twoRecords.Search "ed25519").1 = [some recordXyz, some recordAbc] :=
  ⟨Reachable.put recordXyz (Reachable.put recordAbc (Reachable.new ())),
    search_complete twoRecords
      (Reachable.put recordXyz (Reachable.put recordAbc (Reachable.new ()))) "0" recordAbc,
    by decide, by decide⟩

/-- C5: Search multiplicity — in every store state reachable from `New` by
`Put` and `Remove`, `Search("")` has exactly as many elements as the mapping
has keys, holds every entry of the mapping exactly once and nothing else, and
for every `q` the length of `Search(q)` is the number of keys of the mapping
that contain `q`. -/
theorem search_multiplicity [Keyer V] [DecidableEq V] (s : InMemory L V)
    (h : Reachable s) :
    (s.Search "").1.length = s.storedKeys.length ∧
    (∀ k v, s.holds k v → (s.Search "").1.count (some v) = 1) ∧
    (∀ r, r ∈ (s.Search "").1 → ∃ k v, s.holds k v ∧ r = some v) ∧
    (∀ q, (s.Search q).1.length =
      (s.storedKeys.filter (fun k => stringsContains k q)).length) := by
  have hinv := reachable_keyConsistent h
  have hall : (s.Search "").1 = (mapRange s.data).map (fun e => some e.2) := by
    rw [Search_eq]
    congr 1
    apply List.filter_eq_self.mpr
    intro e _
    exact stringsContains_empty e.1
  refine ⟨?_, ?_, ?_, ?_⟩
  · rw [hall, storedKeys_eq_keys]; simp [InMemory.keys]
  · intro k v hv
    have hg : s.Get k = some v := (holds_iff_Get s k v).mp hv
    rw [hall]
    apply countP_eq_one (fun r => r == some v) (some v) (fun x => beq_iff_eq)
    · have hnd : (mapRange s.data).Nodup :=
        List.Nodup.of_map Prod.fst (mapRange_nodup_keys s.data)
      apply List.Nodup.map_on _ hnd
      rintro ⟨k1, w1⟩ h1 ⟨k2, w2⟩ h2 heq
      simp only [Option.some.injEq] at heq
      subst heq
      have e1 := hinv k1 w1 ((mem_mapRange s.data k1 w1).mp h1)
      have e2 := hinv k2 w1 ((mem_mapRange s.data k2 w1).mp h2)
      rw [← e1, ← e2]
    · exact List.mem_map.mpr ⟨(k, v), (mem_mapRange s.data k v).mpr hg, rfl⟩
  · intro r hr
    rw [hall] at hr
    obtain ⟨⟨k, v⟩, hmem, rfl⟩ := List.mem_map.mp hr
    exact ⟨k, v, (holds_iff_Get s k v).mpr ((mem_mapRange s.data k v).mp hmem), rfl⟩
  · intro q
    rw [Search_eq, storedKeys_eq_keys, keys_filter_length, List.length_map]

/-- Witness of C5: the store holding the records keyed "ed25519:0" and
"ed25519:1"; `Search("")` returns the two records, each once. -/
theorem search_multiplicity_witness :
    Reachable twoRecords ∧
    twoRecords.holds "ed25519:0" recordAbc ∧
    (twoRecords.Search "").1.count (some recordAbc) = 1 ∧
    (twoRecords.Search "").1.length = twoRecords.storedKeys.length ∧
    twoRecords.storedKeys = ["ed25519:1", "ed25519:0"] ∧
    (twoRecords.Search "").1 = [some recordXyz, some recordAbc] ∧
    (twoRecords.Search "1").1.length =
      (twoRecords.storedKeys.filter (fun k => stringsContains k "1")).length ∧
    (twoRecords.Search "1").1 = [some recordXyz, some recordAbc] ∧
    (twoRecords.Search ":1").1 = [some recordXyz] :=
  ⟨Reachable.put recordXyz (Reachable.put recordAbc (Reachable.new ())),
    ⟨_, rfl, by decide⟩,
    (search_multiplicity twoRecords
      (Reachable.put recordXyz (Reachable.put recordAbc (Reachable.new ())))).2.1
      "ed25519:0" recordAbc ⟨_, rfl, by decide⟩,
    (search_multiplicity twoRecords
      (Reachable.put recordXyz (Reachable.put recordAbc (Reachable.new ())))).1,
    by decide, by decide,
    (search_multiplicity twoRecords
      (Reachable.put recordXyz (Reachable.put recordAbc (Reachable.new ())))).2.2.2 "1",
    by decide, by decide⟩

/-- C6: Lookup/Get agreement on presence — for every store state and key `k`,
`Lookup(k)` returns a non-nil reference if and only if `Get(k)` returns a
value, not the nil sentinel, and that value is the entry the mapping holds
under `k`; on the store that a sequence of `Put` and `Remove` calls makes of
a new store, it is the value last stored under `k` and not removed since. -/
theorem lookup_get_presence [Keyer V] (s : InMemory L V) (k : String) (l : L)
    (ops : List (Op V)) :
    (s.Lookup k ≠ none ↔ s.Get k ≠ none) ∧
    (s.Lookup k ≠ none ↔ ∃ v, s.Get k = some v ∧ s.holds k v) ∧
    (((New l : InMemory L V).run ops).Lookup k ≠ none ↔
      ∃ v, ((New l : InMemory L V).run ops).Get k = some v ∧
        lastStored k ops = some v) := by
  refine ⟨by rw [Lookup_eq_Get], ?_, ?_⟩
  · rw [Lookup_eq_Get]
    constructor
    · intro h
      obtain ⟨v, hv⟩ := Option.ne_none_iff_exists.mp h
      exact ⟨v, hv.symm, (holds_iff_Get s k v).mpr hv.symm⟩
    · rintro ⟨v, hv, _⟩
      rw [hv]
      exact Option.some_ne_none v
  · rw [Lookup_eq_Get]
    have hrun : ((New l : InMemory L V).run ops).Get k = lastStored k ops :=
      Get_run k ops (New l)
    constructor
    · intro h
      obtain ⟨v, hv⟩ := Option.ne_none_iff_exists.mp h
      exact ⟨v, hv.symm, by rw [← hrun]; exact hv.symm⟩
    · rintro ⟨v, hv, _⟩
      rw [hv]
      exact Option.some_ne_none v

/-- C7: Idempotent removal — for every store state `s` and key `k`, calling
`Remove(k)` twice in succession leaves the store in the same state as calling
it once. -/
theorem remove_idempotent (s : InMemory L V) (k : String) :
    ((s.Remove k).1.Remove k).1 = (s.Remove k).1 := by
  have h := erase_absent ((materialize s.data).erase k) k (AList.lookup_erase k _)
  exact congrArg (fun d => InMemory.mk s.log (some d)) h

/-- C8: Remove of an absent key is a no-op — for every store state `s` and
key `k` not present in `s`, `Remove(k)` returns the nil error and `Get`,
`Lookup` and `Search` answer as before for every key and query, also when the
mapping was never written and `Remove` materializes it. -/
theorem remove_absent_noop (s : InMemory L V) (k : String) (h : s.Get k = none) :
    (s.Remove k).2 = none ∧
    (∀ j, (s.Remove k).1.Get j = s.Get j) ∧
    (∀ j, (s.Remove k).1.Lookup j = s.Lookup j) ∧
    (∀ q, (s.Remove k).1.Search q = s.Search q) := by
  have hget : ∀ j, (s.Remove k).1.Get j = s.Get j := fun j =>
    mapIndex_remove_absent s.data k j h
  refine ⟨rfl, hget, ?_, ?_⟩
  · intro j
    rw [Lookup_eq_Get, Lookup_eq_Get]; exact hget j
  · intro q
    apply Prod.ext
    · rw [Search_eq, Search_eq]
      simp only [InMemory.Remove]
      rw [mapRange_remove_absent s.data k h]
    · rfl

/-- Witness of C8: `Remove("ed25519:0")` on the store returned by `New`, whose
mapping was never written. -/
theorem remove_absent_noop_witness :
    (New () : InMemory Unit PublicKey).Get "ed25519:0" = none ∧
    ((New () : InMemory Unit PublicKey).Remove "ed25519:0").2 = none ∧
    (((New () : InMemory Unit PublicKey).Remove "ed25519:0").1.Search "" =
      (New () : InMemory Unit PublicKey).Search "") ∧
    ((New () : InMemory Unit PublicKey).Remove "ed25519:0").1.data ≠
      (New () : InMemory Unit PublicKey).data :=
  ⟨rfl,
    (remove_absent_noop (New () : InMemory Unit PublicKey) "ed25519:0" rfl).1,
    (remove_absent_noop (New () : InMemory Unit PublicKey) "ed25519:0" rfl).2.2.2 "",
    by simp [New, InMemory.Remove]⟩

/-- C9 as stated fails: `Put` of the nil interface and `Put` of a nil
`*PublicKey` panic in `v.Key()` and return no error value at all. -/
theorem put_nil_counterexample :
    (twoRecords.PutCall GoKeyer.nilInterface).2 = Outcome.panics ∧
    (twoRecords.PutCall GoKeyer.nilPointer).2 = Outcome.panics ∧
    ¬ (∀ (s : InMemory Unit PublicKey) (a : GoKeyer PublicKey),
        (s.PutCall a).2 = Outcome.returns none) := by
  refine ⟨rfl, rfl, ?_⟩
  intro h
  have hp := h twoRecords GoKeyer.nilInterface
  exact absurd hp (by decide)

/-- C9, amended: for every store state and every argument `a` on which
`a.Key()` returns, `Put(a)` returns a nil error and does what `Put` does on
the keyed entity; `Remove` returns a nil error for every key and `Search` for
every query. -/
theorem no_error_path [Keyer V] (s : InMemory L V) (a : GoKeyer V) (key k q : String)
    (h : a.Key = Outcome.returns key) :
    (s.PutCall a).2 = Outcome.returns none ∧
    (∃ v, a = GoKeyer.pointer v ∧ Keyer.Key v = key ∧ (s.PutCall a).1 = (s.Put v).1) ∧
    (s.Remove k).2 = none ∧ (s.Search q).2 = none := by
  cases a with
  | nilInterface => simp [GoKeyer.Key] at h
  | nilPointer => simp [GoKeyer.Key] at h
  | pointer v =>
    simp only [GoKeyer.Key, Outcome.returns.injEq] at h
    exact ⟨rfl, ⟨v, rfl, h, rfl⟩, rfl, rfl⟩

/-- Witness of C9, amended: `Put` of a pointer to the record keyed
"ed25519:0" on the store with two records. -/
theorem no_error_path_witness :
    (GoKeyer.pointer recordAbc2).Key = Outcome.returns "ed25519:0" ∧
    (twoRecords.PutCall (GoKeyer.pointer recordAbc2)).2 = Outcome.returns none ∧
    (twoRecords.PutCall (GoKeyer.pointer recordAbc2)).1.Get "ed25519:0" =
      some recordAbc2 ∧
    (twoRecords.Remove "ed25519:0").2 = none ∧ (twoRecords.Search "0").2 = none :=
  ⟨by decide,
    (no_error_path twoRecords (GoKeyer.pointer recordAbc2) "ed25519:0" "ed25519:0" "0"
      (by decide)).1,
    by decide,
    (no_error_path twoRecords (GoKeyer.pointer recordAbc2) "ed25519:0" "ed25519:0" "0"
      (by decide)).2.2⟩

/-- C10: Reads on a never-written store behave as empty — on the store
returned by `New`, for every key `k` and query `q`, `Get(k)` returns the nil
sentinel, `Lookup(k)` returns nil and `Search(q)` returns an empty result
with a nil error. -/
theorem reads_on_new (l : L) (k q : String) :
    (New l : InMemory L V).Get k = none ∧
    (New l : InMemory L V).Lookup k = none ∧
    (New l : InMemory L V).Search q = ([], none) :=
  ⟨rfl, rfl, rfl⟩

/-- C11: Key derivation of the signing key record — for every PublicKey `p`,
`p.Key()` is `p.Algorithm + ":" + p.Identifier` and does not depend on
`p.Content`; Algorithm "ed25519" and Identifier "0" give "ed25519:0". -/
theorem key_derivation (p : PublicKey) (c : String) :
    Keyer.Key p = p.Algorithm ++ ":" ++ p.Identifier ∧
    Keyer.Key { p with Content := c } = Keyer.Key p ∧
    Keyer.Key ({ Algorithm := "ed25519", Identifier := "0", Content := c } : PublicKey) =
      "ed25519:0" :=
  ⟨rfl, rfl, by simp only [Keyer.Key, PublicKey.Key]; decide⟩

/-- C12: Key is never empty — for every PublicKey `p`, also one whose
Algorithm and Identifier are both empty, `p.Key()` is not the empty string. -/
theorem key_nonempty (p : PublicKey) : Keyer.Key p ≠ "" := by
  intro h
  have hd : p.Key.data = "".data := congrArg String.data h
  rw [Key_data] at hd
  simp at hd

/-- C13, the code at a missing key: `Get` returns the nil Keyer, on the store
that holds two records and on the store just returned by `New`; it does not
panic. -/
theorem get_missing_returns_nil :
    twoRecords.Get "ed25519:2" = none ∧
    (New () : InMemory Unit PublicKey).Get "ed25519:0" = none :=
  ⟨by decide, rfl⟩

/-- C14 as stated fails: `Put` of the entity whose key is the empty string
into the new store returns the nil error and changes the store, which then
holds the entity under "". -/
theorem put_empty_key_counterexample :
    Keyer.Key emptyLabel = "" ∧
    ¬ (((New () : InMemory Unit Label).Put emptyLabel).2 ≠ none ∧
       ((New () : InMemory Unit Label).Put emptyLabel).1 = New ()) ∧
    ((New () : InMemory Unit Label).Put emptyLabel).1.Get "" = some emptyLabel := by
  refine ⟨rfl, ?_, by decide⟩
  rintro ⟨herr, _⟩
  exact herr rfl

/-- C14, amended: for every store state `s` and every keyed entity `v` whose
`Key()` returns the empty string, `Put(v)` returns the nil error and stores
`v` under "": afterwards `Get("")` returns `v` and `Lookup("")` finds it. -/
theorem put_empty_key_stored [Keyer V] (s : InMemory L V) (v : V)
    (h : Keyer.Key v = "") :
    (s.Put v).2 = none ∧ (s.Put v).1.Get "" = some v ∧
    (s.Put v).1.Lookup "" = some v := by
  have hg : (s.Put v).1.Get "" = some v := by
    rw [← h]
    simp [InMemory.Put, InMemory.Get, mapIndex, AList.lookup_insert]
  exact ⟨rfl, hg, by rw [Lookup_eq_Get]; exact hg⟩

/-- Witness of C14, amended: the entity with the empty key put into the store
that holds one record. -/
theorem put_empty_key_stored_witness :
    Keyer.Key emptyLabel = "" ∧
    (((New () : InMemory Unit Label).Put { name := "x" }).1.Put emptyLabel).2 = none ∧
    (((New () : InMemory Unit Label).Put { name := "x" }).1.Put emptyLabel).1.Get "" =
      some emptyLabel ∧
    (((New () : InMemory Unit Label).Put { name := "x" }).1.Put emptyLabel).1.Lookup "" =
      some emptyLabel :=
  ⟨rfl, put_empty_key_stored ((New () : InMemory Unit Label).Put { name := "x" }).1
    emptyLabel rfl⟩

/-- C16 as stated fails: the records ("a:b", "c") and ("a", "b:c") have the
same key "a:b:c" and different (algorithm, identifier) pairs. -/
theorem key_uniqueness_counterexample :
    colonInAlgorithm.Key = colonInIdentifier.Key ∧
    (colonInAlgorithm.Algorithm, colonInAlgorithm.Identifier) ≠
      (colonInIdentifier.Algorithm, colonInIdentifier.Identifier) ∧
    ¬ (∀ p1 p2 : PublicKey, p1.Key = p2.Key ↔
        (p1.Algorithm, p1.Identifier) = (p2.Algorithm, p2.Identifier)) := by
  refine ⟨by decide, by decide, ?_⟩
  intro h
  have hp := (h colonInAlgorithm colonInIdentifier).mp (by decide)
  exact absurd hp (by decide)

/-- C16, amended: for every two PublicKey values, identical (algorithm,
identifier) pairs give identical keys, for all strings; and when neither
Algorithm contains ":", `p1.Key() = p2.Key()` if and only if the pairs are
identical (the Identifier may contain ":"). -/
theorem key_uniqueness_without_colon (p1 p2 : PublicKey) :
    ((p1.Algorithm, p1.Identifier) = (p2.Algorithm, p2.Identifier) →
      p1.Key = p2.Key) ∧
    (':' ∉ p1.Algorithm.data → ':' ∉ p2.Algorithm.data →
      (p1.Key = p2.Key ↔
        (p1.Algorithm, p1.Identifier) = (p2.Algorithm, p2.Identifier))) := by
  have hback : (p1.Algorithm, p1.Identifier) = (p2.Algorithm, p2.Identifier) →
      p1.Key = p2.Key := by
    intro h
    simp only [Prod.mk.injEq] at h
    simp [PublicKey.Key, h.1, h.2]
  refine ⟨hback, fun h1 h2 => ⟨?_, hback⟩⟩
  intro h
  have hd : p1.Key.data = p2.Key.data := congrArg String.data h
  rw [Key_data, Key_data] at hd
  obtain ⟨ha, hi⟩ := append_sep_inj ':' _ _ _ _ h1 h2 hd
  rw [String.ext ha, String.ext hi]

/-- Witness of C16, amended: the two records keyed "ed25519:0" have the same
pair and the same key; "a" contains no ":", and the records ("a", "b:c") and
("a", "b") have different keys and different pairs. -/
theorem key_uniqueness_without_colon_witness :
    (recordAbc.Algorithm, recordAbc.Identifier) =
      (recordAbc2.Algorithm, recordAbc2.Identifier) ∧
    recordAbc.Key = recordAbc2.Key ∧
    ':' ∉ colonInIdentifier.Algorithm.data ∧ ':' ∉ colonFree.Algorithm.data ∧
    (colonInIdentifier.Key = colonFree.Key ↔
      (colonInIdentifier.Algorithm, colonInIdentifier.Identifier) =
        (colonFree.Algorithm, colonFree.Identifier)) ∧
    colonInIdentifier.Key ≠ colonFree.Key :=
  ⟨by decide,
    (key_uniqueness_without_colon recordAbc recordAbc2).1 (by decide),
    by decide, by decide,
    (key_uniqueness_without_colon colonInIdentifier colonFree).2 (by decide) (by decide),
    by decide⟩

/-- C17: the scan of Lookup is a direct map probe — for every store state and
key `k`, `Lookup(k)` is nil exactly when `k` has no entry, otherwise it is a
reference to the entry at `k`; it is what `Get(k)` and the probe return; at
most one key matches, and the result is the same for every order in which
the entries are visited. -/
theorem lookup_refines_probe (s : InMemory L V) (k : String) :
    (s.Lookup k = none ↔ k ∉ s.keys) ∧
    (∀ v, (k, v) ∈ mapRange s.data → s.Lookup k = some v) ∧
    s.Lookup k = s.Get k ∧
    s.Lookup k = (lookupProbe s k).1 ∧
    (s.Lookup k).isSome = (lookupProbe s k).2 ∧
    s.keys.count k ≤ 1 ∧
    (∀ t : InMemory L V, (mapRange t.data).Perm (mapRange s.data) →
      t.Lookup k = s.Lookup k) := by
  have hnone : s.Lookup k = none ↔ k ∉ s.keys := by
    rw [Lookup_eq_Get, mem_keys_iff]
    constructor
    · rintro h ⟨v, hv⟩
      rw [h] at hv
      cases hv
    · intro h
      cases hg : s.Get k with
      | none => rfl
      | some v => exact absurd ⟨v, hg⟩ h
  refine ⟨hnone, ?_, Lookup_eq_Get s k, Lookup_eq_Get s k, ?_, ?_, ?_⟩
  · intro v hv
    rw [Lookup_eq_Get]
    exact (mem_mapRange s.data k v).mp hv
  · simp only [lookupProbe]
    by_cases hk : k ∈ s.keys
    · have hne : s.Lookup k ≠ none := fun h => hnone.mp h hk
      obtain ⟨v, hv⟩ := Option.ne_none_iff_exists.mp hne
      rw [← hv]
      simp [hk]
    · rw [hnone.mpr hk]
      simp [hk]
  · exact List.nodup_iff_count_le_one.mp (mapRange_nodup_keys s.data) k
  · intro t ht
    rw [Lookup_eq_Get, Lookup_eq_Get]
    exact Get_of_perm s t k ht

/-- Witness of C17: the store with the two records visited in the other
order gives the same `Lookup("ed25519:0")`. -/
theorem lookup_refines_probe_witness :
    (mapRange twoRecordsSwapped.data).Perm (mapRange twoRecords.data) ∧
    mapRange twoRecordsSwapped.data ≠ mapRange twoRecords.data ∧
    twoRecordsSwapped.Lookup "ed25519:0" = twoRecords.Lookup "ed25519:0" ∧
    twoRecords.Lookup "ed25519:0" = some recordAbc :=
  ⟨by decide, by decide,
    (lookup_refines_probe twoRecords "ed25519:0").2.2.2.2.2.2 twoRecordsSwapped
      (by decide),
    by decide⟩

/-- C18: Key-derivation consistency invariant — `New` establishes that every
entry `(k, v)` of the mapping has `v.Key() = k`, `Put` and `Remove` each
preserve it, and it holds in every store state reachable from `New` by `Put`
and `Remove`. -/
theorem key_consistency_invariant (L V : Type) [Keyer V] :
    (∀ l : L, KeyConsistent (New l : InMemory L V)) ∧
    (∀ (s : InMemory L V) (v : V), KeyConsistent s → KeyConsistent (s.Put v).1) ∧
    (∀ (s : InMemory L V) (k : String), KeyConsistent s →
      KeyConsistent (s.Remove k).1) ∧
    (∀ s : InMemory L V, Reachable s →
      ∀ k v, (k, v) ∈ mapRange s.data → Keyer.Key v = k) :=
  ⟨keyConsistent_new, keyConsistent_put, keyConsistent_remove,
    fun s h k v hv => reachable_keyConsistent h k v ((mem_mapRange s.data k v).mp hv)⟩

/-- Witness of C18: the reachable store with two records, at its entry for
"ed25519:0". -/
theorem key_consistency_invariant_witness :
    Reachable twoRecords ∧
    ("ed25519:0", recordAbc) ∈ mapRange twoRecords.data ∧
    Keyer.Key recordAbc = "ed25519:0" :=
  ⟨Reachable.put recordXyz (Reachable.put recordAbc (Reachable.new ())),
    by decide,
    (key_consistency_invariant Unit PublicKey).2.2.2 twoRecords
      (Reachable.put recordXyz (Reachable.put recordAbc (Reachable.new ())))
      "ed25519:0" recordAbc (by decide)⟩

/-- C19: Mutations touch only their own key — for every store state `s`,
entity `v` and key `k` other than `v.Key()`, `Get(k)` and `Lookup(k)` answer
the same after `Put(v)` as before; for every two different keys `k` and `j`,
`Get(j)` and `Lookup(j)` answer the same after `Remove(k)` as before. -/
theorem mutation_frame [Keyer V] (s : InMemory L V) (v : V) (k j : String) :
    (k ≠ Keyer.Key v →
      (s.Put v).1.Get k = s.Get k ∧ (s.Put v).1.Lookup k = s.Lookup k) ∧
    (k ≠ j →
      (s.Remove k).1.Get j = s.Get j ∧ (s.Remove k).1.Lookup j = s.Lookup j) := by
  constructor
  · intro h
    have hg := Get_put_ne s v k h
    exact ⟨hg, by rw [Lookup_eq_Get, Lookup_eq_Get]; exact hg⟩
  · intro h
    have hg := Get_remove_ne s k j h
    exact ⟨hg, by rw [Lookup_eq_Get, Lookup_eq_Get]; exact hg⟩

/-- Witness of C19: on the store with two records, `Put` of a second record
keyed "ed25519:0" and `Remove("ed25519:0")` leave "ed25519:1" as it was. -/
theorem mutation_frame_witness :
    "ed25519:1" ≠ Keyer.Key recordAbc2 ∧
    ((twoRecords.Put recordAbc2).1.Get "ed25519:1" = twoRecords.Get "ed25519:1" ∧
      (twoRecords.Put recordAbc2).1.Lookup "ed25519:1" = twoRecords.Lookup "ed25519:1") ∧
    "ed25519:0" ≠ "ed25519:1" ∧
    ((twoRecords.Remove "ed25519:0").1.Get "ed25519:1" = twoRecords.Get "ed25519:1" ∧
      (twoRecords.Remove "ed25519:0").1.Lookup "ed25519:1" =
        twoRecords.Lookup "ed25519:1") ∧
    twoRecords.Get "ed25519:1" = some recordXyz :=
  ⟨by decide,
    (mutation_frame twoRecords recordAbc2 "ed25519:1" "ed25519:1").1 (by decide),
    by decide,
    (mutation_frame twoRecords recordAbc2 "ed25519:0" "ed25519:1").2 (by decide),
    by decide⟩

end store
